import Mathlib

/-!
Verification development for the SVG post-processing core of a PNG-to-SVG
converter.  The two components modelled here are the SVG optimizer
(`optimizeSvgPaths` with its helper passes `removeRedundantCommands`,
`roundCoordinates`, `removeEmptyAttributes`, `calculateCompressionRatio`)
and the SVG formatter (`formatSvgString`).

The source is JavaScript operating on strings through `String.prototype.replace`
with global regular expressions.  The embedding works on `List Char` and
implements, for each regular expression occurring in the source, a dedicated
matcher with the exact leftmost / greedy / backtracking semantics of the
ECMAScript regex engine, together with a generic global-replace scanner
(`jsRep`) that mirrors `replace(/…/g, …)`: it scans left to right, substitutes
each match, resumes after the end of the match, and never rescans emitted
output.  Numeric behaviour (`parseFloat` followed by `Number.prototype.toFixed`)
is modelled exactly, with IEEE-754 binary64 rounding carried out in integer
arithmetic.  Case-insensitive matching (`i` flag) is modelled on ASCII letters.
-/

set_option maxRecDepth 100000

/-! ## Character classes (ECMAScript) -/

/-- ECMAScript `\s`: WhiteSpace and LineTerminator code points. -/
def isJsWs (c : Char) : Bool :=
  let n := c.toNat
  n == 32 || (9 ≤ n && n ≤ 13) || n == 160 || n == 0x1680 ||
  (0x2000 ≤ n && n ≤ 0x200A) || n == 0x2028 || n == 0x2029 ||
  n == 0x202F || n == 0x205F || n == 0x3000 || n == 0xFEFF

/-- ECMAScript `\d`. -/
def isDigitC (c : Char) : Bool :=
  48 ≤ c.toNat && c.toNat ≤ 57

/-- ECMAScript `\w`. -/
def isWordC (c : Char) : Bool :=
  let n := c.toNat
  (48 ≤ n && n ≤ 57) || (65 ≤ n && n ≤ 90) || (97 ≤ n && n ≤ 122) || n == 95

/-- Attribute-name characters `[a-zA-Z-]`. -/
def isNameC (c : Char) : Bool :=
  let n := c.toNat
  (65 ≤ n && n ≤ 90) || (97 ≤ n && n ≤ 122) || n == 45

/-- ASCII lower-casing, used to model the `i` flag. -/
def lowerC (c : Char) : Char :=
  if 65 ≤ c.toNat && c.toNat ≤ 90 then Char.ofNat (c.toNat + 32) else c

/-- Case-insensitive character comparison (ASCII model of canonicalisation). -/
def eqCi (a b : Char) : Bool := lowerC a == lowerC b

/-- Path-command letters `[MLHVCSQTAZ]` under the `i` flag. -/
def isCmdL (c : Char) : Bool :=
  let d := lowerC c
  d == 'm' || d == 'l' || d == 'h' || d == 'v' || d == 'c' ||
  d == 's' || d == 'q' || d == 't' || d == 'a' || d == 'z'

/-! ## Basic list utilities -/

/-- Does `l` start with `pat` (exact characters)? -/
def startsWithL : List Char → List Char → Bool
  | [], _ => true
  | _ :: _, [] => false
  | p :: ps, c :: cs => p == c && startsWithL ps cs

/-- Does `l` start with `pat`, comparing case-insensitively? -/
def startsWithCi : List Char → List Char → Bool
  | [], _ => true
  | _ :: _, [] => false
  | p :: ps, c :: cs => eqCi p c && startsWithCi ps cs

/-- Index of the first occurrence of `pat` in `l` (fuelled). -/
def findSubF : Nat → List Char → List Char → Option Nat
  | 0, _, _ => none
  | f + 1, pat, l =>
    if startsWithL pat l then some 0
    else match l with
      | [] => none
      | _ :: t => (findSubF f pat t).map (· + 1)

/-- Does `pat` occur as a contiguous substring of `l`? -/
def containsSub (pat l : List Char) : Bool :=
  (findSubF (l.length + 1) pat l).isSome

/-- Number of positions of `l` at which `pat` starts. -/
def countSubF : Nat → List Char → List Char → Nat
  | 0, _, _ => 0
  | f + 1, pat, l =>
    (if startsWithL pat l then 1 else 0) +
      match l with
      | [] => 0
      | _ :: t => countSubF f pat t

def countSub (pat l : List Char) : Nat := countSubF (l.length + 1) pat l

/-- Drop ECMAScript whitespace from both ends, as `String.prototype.trim`. -/
def jsTrimL (l : List Char) : List Char :=
  ((((l.dropWhile isJsWs).reverse).dropWhile isJsWs).reverse)

/-! ## Generic global replace (`String.prototype.replace` with `g` flag)

A matcher `m` inspects a suffix of the subject and, when the pattern matches at
its head, returns the match length together with the replacement characters.
`jsRepAll` scans left to right: at a match it emits the replacement and resumes
after the matched span; otherwise it keeps the character and moves one step.
The fuel argument only serves to make the recursion structural; it is always
instantiated above the subject length. -/

def jsRepAll (m : List Char → Option (Nat × List Char)) : Nat → List Char → List Char
  | 0, l => l
  | _ + 1, [] => []
  | f + 1, c :: cs =>
    match m (c :: cs) with
    | some (n, r) => r ++ jsRepAll m f (List.drop n (c :: cs))
    | none => c :: jsRepAll m f cs

def jsRep (m : List Char → Option (Nat × List Char)) (l : List Char) : List Char :=
  jsRepAll m (l.length + 1) l

/-- Is there a position of `l` at which `m` matches? -/
def jsHasMatchF (m : List Char → Option (Nat × List Char)) : Nat → List Char → Bool
  | 0, _ => false
  | _ + 1, [] => false
  | f + 1, c :: cs =>
    (m (c :: cs)).isSome || jsHasMatchF m f cs

def jsHasMatch (m : List Char → Option (Nat × List Char)) (l : List Char) : Bool :=
  jsHasMatchF m (l.length + 1) l

/-- Along the actual scan, does every fired replacement have length at most the
length of the span it replaces? -/
def scanOkF (m : List Char → Option (Nat × List Char)) : Nat → List Char → Bool
  | 0, _ => true
  | _ + 1, [] => true
  | f + 1, c :: cs =>
    match m (c :: cs) with
    | some (n, r) => decide (r.length ≤ n) && scanOkF m f (List.drop n (c :: cs))
    | none => scanOkF m f cs

def scanOk (m : List Char → Option (Nat × List Char)) (l : List Char) : Bool :=
  scanOkF m (l.length + 1) l

/-- The list of replacements fired by the scan, in order. -/
def jsRepsF (m : List Char → Option (Nat × List Char)) : Nat → List Char → List (List Char)
  | 0, _ => []
  | _ + 1, [] => []
  | f + 1, c :: cs =>
    match m (c :: cs) with
    | some (n, r) => r :: jsRepsF m f (List.drop n (c :: cs))
    | none => jsRepsF m f cs

/-! ## IEEE-754 binary64 numerics (`parseFloat` / `toFixed`)

`roundCoordinates` replaces every match of `(-?\d+\.\d+)` by
`parseFloat(match).toFixed(decimalPlaces)`.  `parseFloat` yields the binary64
double nearest to the exact decimal value (ties to even significand);
`toFixed`, per ECMAScript, formats the double with `f` fractional digits,
choosing the integer `n` minimising `|n / 10^f - x|` on the absolute value of
the double (ties upward in magnitude), after handling the sign, and falls back
to `Number::toString` for magnitudes at or above `10^21`.  All of this is
computed here in exact integer arithmetic.  A double is represented as a sign,
a significand `m` and a binary exponent `e2`, denoting `(-1)^neg * m * 2^e2`,
or as a signed infinity for literals beyond the binary64 range. -/

inductive JsNum where
  | fin (neg : Bool) (m : Nat) (e2 : Int)
  | inf (neg : Bool)
deriving DecidableEq

/-- Floor of the base-2 logarithm of `num / den`, for `1 ≤ den ≤ num`
(fuelled; the fuel only bounds the recursion depth). -/
def flogF : Nat → Nat → Nat → Nat
  | 0, _, _ => 0
  | f + 1, num, den => if num < 2 * den then 0 else flogF f num (2 * den) + 1

def flog (num den : Nat) : Nat := flogF num num den

/-- `e` with `2^e ≤ num/den < 2^(e+1)`, for positive `num`, `den`. -/
def ilog2 (num den : Nat) : Int :=
  if den ≤ num then Int.ofNat (flog num den)
  else
    let t := flog den num
    if den = num * 2 ^ t then -(Int.ofNat t) else -(Int.ofNat t) - 1

/-- Round `a / b` to the nearest integer, ties to even. -/
def rheDiv (a b : Nat) : Nat :=
  let q := a / b
  let r := a % b
  if b < 2 * r then q + 1
  else if 2 * r < b then q
  else if q % 2 = 0 then q else q + 1

/-- Round `a / b` to the nearest integer, ties upward (used on magnitudes,
hence ties away from zero). -/
def rhaDiv (a b : Nat) : Nat :=
  let q := a / b
  let r := a % b
  if b ≤ 2 * r then q + 1 else q

/-- The binary64 double nearest to `(-1)^neg * num / 10^k` (`parseFloat` of a
literal with integer digits and `k` fractional digits). -/
def ndOfNat (neg : Bool) (num k : Nat) : JsNum :=
  if num = 0 then JsNum.fin neg 0 0
  else
    let den := 10 ^ k
    let e := ilog2 num den
    if e < -1022 then
      -- subnormal range: fixed scale 2^-1074
      JsNum.fin neg (rheDiv (num * 2 ^ 1074) den) (-1074)
    else
      let t : Int := 52 - e
      let m := if 0 ≤ t then rheDiv (num * 2 ^ t.toNat) den
               else rheDiv num (den * 2 ^ (-t).toNat)
      let m' := if m = 2 ^ 53 then 2 ^ 52 else m
      let e' := if m = 2 ^ 53 then e + 1 else e
      if 1023 < e' then JsNum.inf neg else JsNum.fin neg m' (e' - 52)

/-- Decimal value of a digit-character list (most significant first). -/
def digitsToNat (l : List Char) : Nat :=
  l.foldl (fun a c => 10 * a + (c.toNat - 48)) 0

/-- `parseFloat` of a matched literal: optional sign, integer digits `ip`,
fractional digits `fp`. -/
def ndOfLit (neg : Bool) (ip fp : List Char) : JsNum :=
  ndOfNat neg (digitsToNat (ip ++ fp)) fp.length

def digitChar (d : Nat) : Char := Char.ofNat (48 + d)

/-- Decimal digit characters of `n`, most significant first (fuelled). -/
def natDigitsAux : Nat → Nat → List Char
  | 0, _ => []
  | f + 1, n => if n < 10 then [digitChar n] else natDigitsAux f (n / 10) ++ [digitChar (n % 10)]

def natDigits (n : Nat) : List Char := natDigitsAux (n + 1) n

/-- Is `m * 2^e2` at least `bound`? -/
def valGe (m : Nat) (e2 : Int) (bound : Nat) : Bool :=
  if 0 ≤ e2 then decide (bound ≤ m * 2 ^ e2.toNat)
  else decide (bound * 2 ^ (-e2).toNat ≤ m)

/-- `Number.prototype.toFixed` on a double, `f` fractional digits, as a
character list.  For magnitudes `≥ 10^21` ECMAScript falls back to
`Number::toString`; such values are integers, and this branch renders their
full decimal expansion (the engine would use exponential notation — every
theorem below that could reach this branch carries a hypothesis excluding it). -/
def toFixedChars (x : JsNum) (f : Nat) : List Char :=
  match x with
  | JsNum.inf neg => (if neg then ['-'] else []) ++ "Infinity".data
  | JsNum.fin neg m e2 =>
    let sign : List Char := if neg && decide (m ≠ 0) then ['-'] else []
    if valGe m e2 (10 ^ 21) then
      sign ++ (if 0 ≤ e2 then natDigits (m * 2 ^ e2.toNat) else natDigits m)
    else
      -- n minimises |n / 10^f - |x||, ties upward
      let n := if 0 ≤ e2 then m * 2 ^ e2.toNat * 10 ^ f
               else rhaDiv (m * 10 ^ f) (2 ^ (-e2).toNat)
      if f = 0 then sign ++ natDigits n
      else
        let ipart := n / 10 ^ f
        let fpart := n % 10 ^ f
        let fds := natDigits fpart
        sign ++ natDigits ipart ++ '.' :: (List.replicate (f - fds.length) '0' ++ fds)

/-- Number of digits after the last `'.'` of `l` (`0` when `l` has no `'.'`). -/
def fracLenL (l : List Char) : Nat :=
  let rev := l.reverse
  let t := rev.takeWhile (fun c => c != '.')
  if t.length = rev.length then 0 else t.length

/-! ## Matchers for the optimizer's regular expressions -/

/-- Matcher for `/<\?xml[^>]*>/gi`: literal `<?xml` (case-insensitive), then
greedily all non-`>` characters, then `>`.  Replacement is empty. -/
def mXmlDecl (l : List Char) : Option (Nat × List Char) :=
  if startsWithCi "<?xml".data l then
    let rest := l.drop 5
    let k := (rest.takeWhile (fun c => c != '>')).length
    if k < rest.length then some (5 + k + 1, []) else none
  else none

/-- Matcher for `/<!--[\s\S]*?-->/g`: literal `<!--`, then the shortest span up
to the first `-->`.  Replacement is empty. -/
def mComment (l : List Char) : Option (Nat × List Char) :=
  if startsWithL "<!--".data l then
    let rest := l.drop 4
    match findSubF (rest.length + 1) "-->".data rest with
    | some i => some (4 + i + 3, [])
    | none => none
  else none

/-- Matcher for `/\s+/g` with replacement `' '`: a maximal whitespace run. -/
def mWs (l : List Char) : Option (Nat × List Char) :=
  let t := l.takeWhile isJsWs
  if t.length = 0 then none else some (t.length, [' '])

/-- Matcher for `/>\s+</g` with replacement `'><'`. -/
def mTagWs (l : List Char) : Option (Nat × List Char) :=
  match l with
  | '>' :: rest =>
    let k := (rest.takeWhile isJsWs).length
    if 1 ≤ k && startsWithL ['<'] (rest.drop k) then some (1 + k + 1, ['>', '<'])
    else none
  | _ => none

/-- The unsigned part `\d+\.\d+` of the literal pattern, at the head of `l0`.
The greedy digit runs are maximal; shortening either run cannot rescue a
failing match (the following mandatory character would have to be a digit), so
the match is deterministic. -/
def mDecCore (l0 : List Char) : Option (Nat × List Char × List Char) :=
  let ip := l0.takeWhile isDigitC
  if ip.length = 0 then none
  else match l0.drop ip.length with
    | '.' :: r2 =>
      let fp := r2.takeWhile isDigitC
      if fp.length = 0 then none
      else some (ip.length + 1 + fp.length, ip, fp)
    | _ => none

def mDecRaw (l : List Char) : Option (Nat × Bool × List Char × List Char) :=
  match l with
  | '-' :: r =>
    match mDecCore r with
    | some (n, ip, fp) => some (n + 1, true, ip, fp)
    | none => none
  | _ =>
    match mDecCore l with
    | some (n, ip, fp) => some (n, false, ip, fp)
    | none => none

/-- Matcher for `roundCoordinates`' replace: the replacement is
`parseFloat(match).toFixed(dp)`. -/
def mRound (dp : Nat) (l : List Char) : Option (Nat × List Char) :=
  match mDecRaw l with
  | some (n, neg, ip, fp) => some (n, toFixedChars (ndOfLit neg ip fp) dp)
  | none => none

/-- Existence-only view of `mDecRaw` (used to decide whether the replace
callback — and hence `toFixed`'s `RangeError` check — ever runs). -/
def mDec (l : List Char) : Option (Nat × List Char) :=
  match mDecRaw l with
  | some (n, _, _, _) => some (n, [])
  | none => none

/-! ### The redundant-command matcher

`/([MLHVCSQTAZ])\s*(\d+(?:\.\d+)?)\s*(\d+(?:\.\d+)?)\s*\1\s*\2\s*\3/gi` with
replacement `'$1 $2 $3'`.  The only backtracking choice points are the two
numeric captures `\d+(?:\.\d+)?`: the engine tries the longest digit run with
the longest fraction first, then shorter fractions, then no fraction, then
shorter digit runs (a shorter digit run is necessarily fraction-free, since the
following character is then a digit and cannot match `\.`).  Every `\s*` is
followed by a non-whitespace mandatory character, so it deterministically takes
the maximal whitespace run.  Backreference `\1` is compared case-insensitively
(the `i` flag applies to backreferences); `\2`, `\3` contain only digits and
dots. -/

/-- `[n, n-1, …, 1]`. -/
def descRange (n : Nat) : List Nat := ((List.range n).reverse).map (· + 1)

def skipWs (l : List Char) : List Char := l.dropWhile isJsWs

/-- Candidate captures for `\d+(?:\.\d+)?` at the head of `l`, in the engine's
backtracking order, each with the remaining suffix. -/
def numTokenCands (l : List Char) : List (List Char × List Char) :=
  let d1 := l.takeWhile isDigitC
  if d1.length = 0 then []
  else
    let r1 := l.drop d1.length
    let fracCands : List (List Char × List Char) :=
      match r1 with
      | '.' :: r2 =>
        let d2 := r2.takeWhile isDigitC
        (descRange d2.length).map (fun i => (d1 ++ '.' :: d2.take i, r2.drop i))
      | _ => []
    fracCands ++ (descRange d1.length).map (fun j => (d1.take j, l.drop j))

/-- First `some` produced by `f` along the list. -/
def pickFirst {α β : Type} (f : α → Option β) : List α → Option β
  | [] => none
  | a :: t =>
    match f a with
    | some b => some b
    | none => pickFirst f t

/-- Tail `\s*\1\s*\2\s*\3` of the redundant-command pattern: returns the suffix
after the full match. -/
def matchDupTail (c : Char) (g2 g3 l : List Char) : Option (List Char) :=
  match skipWs l with
  | c' :: r1 =>
    if eqCi c' c then
      let r2 := skipWs r1
      if startsWithL g2 r2 then
        let r3 := skipWs (r2.drop g2.length)
        if startsWithL g3 r3 then some (r3.drop g3.length) else none
      else none
    else none
  | [] => none

def mRedRaw (l : List Char) : Option (Nat × List Char) :=
  match l with
  | c :: rest =>
    if isCmdL c then
      pickFirst (fun p2 =>
        pickFirst (fun p3 =>
          match matchDupTail c p2.1 p3.1 p3.2 with
          | some restF => some (l.length - restF.length, c :: ' ' :: (p2.1 ++ ' ' :: p3.1))
          | none => none) (numTokenCands (skipWs p2.2))) (numTokenCands (skipWs rest))
    else none
  | [] => none

/-- `mRedRaw` with a length-accounting guard.  The guard conditions hold for
every value `mRedRaw` can produce (the span covers both command copies, the
replacement only the first), so the guard never alters the raw behaviour; it
makes the scanner's bookkeeping lemmas immediate. -/
def mRed (l : List Char) : Option (Nat × List Char) :=
  match mRedRaw l with
  | some (n, r) => if 1 ≤ n ∧ n ≤ l.length ∧ r.length ≤ n then some (n, r) else none
  | none => none

/-- Matcher for `/\s+[a-zA-Z-]+=""/g` (replacement empty). -/
def mAttrD (l : List Char) : Option (Nat × List Char) :=
  let w := (l.takeWhile isJsWs).length
  if w = 0 then none
  else
    let r1 := l.drop w
    let nm := (r1.takeWhile isNameC).length
    if nm = 0 then none
    else if startsWithL ['=', '"', '"'] (r1.drop nm) then some (w + nm + 3, [])
    else none

/-- Matcher for `/\s+[a-zA-Z-]+=''/g` (replacement empty). -/
def mAttrS (l : List Char) : Option (Nat × List Char) :=
  let w := (l.takeWhile isJsWs).length
  if w = 0 then none
  else
    let r1 := l.drop w
    let nm := (r1.takeWhile isNameC).length
    if nm = 0 then none
    else if startsWithL ['=', Char.ofNat 39, Char.ofNat 39] (r1.drop nm) then some (w + nm + 3, [])
    else none

/-! ## The optimizer (source file: SVG optimization utility) -/

/-- `removeRedundantCommands(svgString)`. -/
def removeRedundantCommands (s : String) : String :=
  ⟨jsRep mRed s.data⟩

/-- `roundCoordinates(svgString, decimalPlaces)`.  `Number.prototype.toFixed`
throws a `RangeError` when its argument exceeds 100; the replace callback (and
with it that check) runs exactly when the decimal pattern matches somewhere, so
the JavaScript function throws — modelled as `none` — precisely when a literal
is matched and `decimalPlaces > 100`. -/
def roundCoordinates (s : String) (decimalPlaces : Nat) : Option String :=
  if jsHasMatch mDec s.data = true ∧ 100 < decimalPlaces then none
  else some ⟨jsRep (mRound decimalPlaces) s.data⟩

/-- `removeEmptyAttributes(svgString)`: double-quote pass, then single-quote
pass. -/
def removeEmptyAttributes (s : String) : String :=
  ⟨jsRep mAttrS (jsRep mAttrD s.data)⟩

/-- The pipeline prefix of `optimizeSvgPaths` up to and including the
inter-tag whitespace removal (declaration strip, comment strip, whitespace
collapse, `>\s+<` removal). -/
def optStage3 (l : List Char) : List Char :=
  jsRep mTagWs (jsRep mWs (jsRep mComment (jsRep mXmlDecl l)))

/-- `optimizeSvgPaths(svgString)`: the full fixed-order pipeline.  The
`roundCoordinates` call uses `decimalPlaces = 1`, for which `toFixed` never
throws, so the rounding pass is used directly. -/
def optimizeSvgPaths (s : String) : String :=
  ⟨jsTrimL (jsRep mAttrS (jsRep mAttrD (jsRep mRed (jsRep (mRound 1) (optStage3 s.data)))))⟩

/-- `calculateCompressionRatio(originalSize, compressedSize)`.  JavaScript
number arithmetic is exact on the values the claims use; the function is
modelled over `ℚ`. -/
def calculateCompressionRatio (originalSize compressedSize : ℚ) : ℚ :=
  if originalSize = 0 then 0 else (originalSize - compressedSize) / originalSize

/-! ## The formatter (source file: fileValidator.js, `formatSvgString`)

The preserve pass scans for
`/(<[^>]*xml:space="preserve"[^>]*>)([\s\S]*?)(<\/[^>]*>)/g` with a callback
that stores the inner content keyed by `__PRESERVE_<offset>__` (offset of the
match in the subject) and substitutes the key.  Group 1 always extends to the
first `>` after the opening `<` (the literal contains no `>`, so the greedy
parts cannot reach past it); group 2 is lazy, so group 3 starts at the earliest
following `</` that is eventually closed by a `>`. -/

/-- Match the close-tag part `<\/[^>]*>` at the earliest possible position of
`l`: returns the (lazy) content before it, the matched close tag, and the
suffix after the match.  If a `</` is found but no `>` follows anywhere, no
later attempt can succeed either. -/
def findCloseF : Nat → List Char → Option (List Char × List Char × List Char)
  | 0, _ => none
  | _ + 1, [] => none
  | f + 1, c :: cs =>
    if startsWithL ['<', '/'] (c :: cs) then
      let r3 := cs.tail
      let s := r3.takeWhile (fun ch => ch != '>')
      if s.length < r3.length then
        some ([], '<' :: '/' :: (s ++ ['>']), r3.drop (s.length + 1))
      else none
    else
      match findCloseF f cs with
      | some (content, g3, rest) => some (c :: content, g3, rest)
      | none => none

/-- The xml:space="preserve" literal. -/
def preserveLit : List Char := "xml:space=\"preserve\"".data

/-- Match of the whole preserve pattern at the head of `l`: opening tag,
content, closing tag, suffix after the match. -/
def mPresRaw (l : List Char) : Option (List Char × List Char × List Char × List Char) :=
  match l with
  | '<' :: rest =>
    let r := rest.takeWhile (fun ch => ch != '>')
    if containsSub preserveLit r && decide (r.length < rest.length) then
      let g1 := '<' :: (r ++ ['>'])
      let r2 := rest.drop (r.length + 1)
      match findCloseF (r2.length + 1) r2 with
      | some (content, g3, restF) => some (g1, content, g3, restF)
      | none => none
    else none
  | _ => none

/-- The placeholder key `__PRESERVE_<offset>__`. -/
def keyOf (off : Nat) : List Char :=
  "__PRESERVE_".data ++ natDigits off ++ "__".data

/-- The preserve pass: replaces each matched element's content by its key and
records `(offset, content)` pairs in match order. -/
def preserveScanF : Nat → Nat → List Char → List Char × List (Nat × List Char)
  | 0, _, l => (l, [])
  | _ + 1, _, [] => ([], [])
  | f + 1, pos, c :: cs =>
    match mPresRaw (c :: cs) with
    | some (g1, content, g3, restF) =>
      if restF.length < (c :: cs).length then
        let n := (c :: cs).length - restF.length
        let p := preserveScanF f (pos + n) restF
        (g1 ++ keyOf pos ++ (g3 ++ p.1), (pos, content) :: p.2)
      else (c :: cs, [])
    | none =>
      let p := preserveScanF f (pos + 1) cs
      (c :: p.1, p.2)

def preserveScan (l : List Char) : List Char × List (Nat × List Char) :=
  preserveScanF (l.length + 1) 0 l

/-- Matcher for `/(>)(<)(\/*)/g` with replacement `'$1\n$2$3'`: inserts a
newline between `>` and `<` (the captured run of slashes is re-emitted and the
scan resumes after it). -/
def mGtLt (l : List Char) : Option (Nat × List Char) :=
  match l with
  | '>' :: '<' :: rest =>
    let s := rest.takeWhile (fun ch => ch == '/')
    some (2 + s.length, '>' :: '\n' :: '<' :: s)
  | _ => none

/-- `String.prototype.split('\n')`. -/
def splitNl : List Char → List (List Char)
  | [] => [[]]
  | c :: t =>
    if c = '\n' then [] :: splitNl t
    else
      match splitNl t with
      | h :: r => (c :: h) :: r
      | [] => [[c]]

/-- Test `/^<\/\w/`. -/
def testClose (l : List Char) : Bool :=
  match l with
  | '<' :: '/' :: w :: _ => isWordC w
  | _ => false

/-- All characters except a single final `'>'` are non-`'>'`. -/
def onlyFinalGt : List Char → Bool
  | [] => false
  | ['>'] => true
  | c :: t => c != '>' && onlyFinalGt t

/-- Test `/^<\w[^>]*>$/`. -/
def testFullTag (l : List Char) : Bool :=
  match l with
  | '<' :: w :: rest => isWordC w && onlyFinalGt rest
  | _ => false

/-- Test `/\/>$/`. -/
def endsSlashGt (l : List Char) : Bool :=
  startsWithL ['>', '/'] l.reverse

/-- Head of `/.+<\/\w[^>]*>$/` once the leading `.+` has been consumed. -/
def closeToEnd (l : List Char) : Bool :=
  match l with
  | '<' :: '/' :: w :: rest => isWordC w && onlyFinalGt rest
  | '<' :: '/' :: [] => false
  | _ => false

/-- Test `/.+<\/\w[^>]*>$/`: some strict suffix (at least one character is
consumed by `.+`) is a close tag running to the end of the line. -/
def testInlineClose : List Char → Bool
  | [] => false
  | _ :: t => closeToEnd t || testInlineClose t

/-- The indentation fold over the split lines: closing tags decrement the
depth before rendering, opening (non-self-closing, non-inline-closed) tags
increment it afterwards. -/
def indentFold (ind : Nat) (lines : List (List Char)) : List (List Char) :=
  (lines.foldl
    (fun (st : Nat × List (List Char)) node =>
      let pad := st.1
      let pad1 := if testClose node && decide (0 < pad) then pad - 1 else pad
      let rendered := List.replicate (ind * pad1) ' ' ++ node
      let pad2 :=
        if testFullTag node && !endsSlashGt node && !testInlineClose node
        then pad1 + 1 else pad1
      (pad2, st.2 ++ [rendered]))
    (0, [])).2

/-- `Array.prototype.join('\n')`. -/
def joinNl : List (List Char) → List Char
  | [] => []
  | [x] => x
  | x :: xs => x ++ '\n' :: joinNl xs

/-- Replace the first occurrence of `pat` (a non-empty plain string) by `rep`,
as `String.prototype.replace` with a string pattern. -/
def replFirstF : Nat → List Char → List Char → List Char → List Char
  | 0, _, _, l => l
  | f + 1, pat, rep, l =>
    if startsWithL pat l then rep ++ l.drop pat.length
    else
      match l with
      | [] => []
      | c :: t => c :: replFirstF f pat rep t

/-- `formatSvgString(svgString, { indentSize, preserveWhitespace })`.  A falsy
input (the empty string) yields `""`.  The restore step substitutes each
recorded key back in insertion order (the preserved contents here never contain
`$`-patterns, so the string-replace is a plain substitution). -/
def formatSvgString (s : String) (indentSize : Nat) (preserveWhitespace : Bool) : String :=
  if s.data = [] then ""
  else
    let t := jsTrimL s.data
    let pr := if preserveWhitespace then preserveScan t else (t, [])
    let t2 := jsRep mGtLt pr.1
    let lines := splitNl t2
    let out := joinNl (indentFold indentSize lines)
    let out2 := if out = "<svg>\n</svg>".data then "<svg></svg>".data else out
    ⟨pr.2.foldl (fun acc e => replFirstF (acc.length + 1) (keyOf e.1) e.2 acc) out2⟩

/-- `formatSvgString` with its default options. -/
def formatSvgStringD (s : String) : String := formatSvgString s 2 true

/-! ## Claim-side predicates and the specification's rounding

These definitions render conditions the claims quantify with ("contains a
numeric literal with more than one decimal place", "a run of extra
whitespace", "an empty attribute", …) as decidable scans, and — for the
refinement comparison of the rounding claim — the rounding function exactly as
the specification words it (round-half-away-from-zero on the exact decimal
value of the literal). -/

/-- Two consecutive whitespace characters occur somewhere in `l`. -/
def hasWsRun2 : List Char → Bool
  | c1 :: c2 :: r => (isJsWs c1 && isJsWs c2) || hasWsRun2 (c2 :: r)
  | _ => false

/-- A decimal literal with at least two fractional digits occurs in `l`
(scanning every position with the source's own literal pattern). -/
def specHasMultiDecimalF : Nat → List Char → Bool
  | 0, _ => false
  | _ + 1, [] => false
  | f + 1, c :: cs =>
    (match mDecRaw (c :: cs) with
     | some (_, _, _, fp) => decide (2 ≤ fp.length)
     | none => false) || specHasMultiDecimalF f cs

def specHasMultiDecimal (l : List Char) : Bool :=
  specHasMultiDecimalF (l.length + 1) l

/-- An empty attribute `name=""` or `name=''` (name of letters and hyphens,
with no requirement on what precedes) occurs in `l`. -/
def hasBareEmptyAttr : List Char → Bool
  | c1 :: c2 :: c3 :: c4 :: rest =>
    (isNameC c1 && c2 == '=' &&
      ((c3 == '"' && c4 == '"') || (c3 == Char.ofNat 39 && c4 == Char.ofNat 39))) ||
    hasBareEmptyAttr (c2 :: c3 :: c4 :: rest)
  | _ => false

/-- Modelled from the spec's words for the rounding pass: rewrite the matched
literal to exactly `dp` fractional digits using round-half-away-from-zero on
the exact decimal value of the literal (no detour through binary64). -/
def specRoundLit (neg : Bool) (ip fp : List Char) (dp : Nat) : List Char :=
  let num := digitsToNat (ip ++ fp)
  let den := 10 ^ fp.length
  let n := rhaDiv (num * 10 ^ dp) den
  let sign : List Char := if neg && decide (num ≠ 0) then ['-'] else []
  if dp = 0 then sign ++ natDigits n
  else
    let fds := natDigits (n % 10 ^ dp)
    sign ++ natDigits (n / 10 ^ dp) ++ '.' :: (List.replicate (dp - fds.length) '0' ++ fds)

/-- The rounding pass as the specification words it: same scan, but each
literal rounded half-away-from-zero on its exact decimal value. -/
def specRoundCoordinates (s : String) (dp : Nat) : String :=
  ⟨jsRep (fun l =>
    match mDecRaw l with
    | some (n, neg, ip, fp) => some (n, specRoundLit neg ip fp dp)
    | none => none) s.data⟩

/-- Along the rounding scan, every matched literal's binary64 value lies below
`10^21`, so `toFixed` stays in its fixed-notation branch. -/
def litsOkF : Nat → List Char → Bool
  | 0, _ => true
  | _ + 1, [] => true
  | f + 1, c :: cs =>
    match mDecRaw (c :: cs) with
    | some (n, neg, ip, fp) =>
      (match ndOfLit neg ip fp with
       | JsNum.fin _ m e2 => !valGe m e2 (10 ^ 21)
       | JsNum.inf _ => false) && litsOkF f (List.drop n (c :: cs))
    | none => litsOkF f cs

def litsOk (l : List Char) : Bool := litsOkF (l.length + 1) l

/-- The replacements fired by the rounding pass on `s` with `dp` fractional
digits, in scan order. -/
def roundRepls (s : String) (dp : Nat) : List (List Char) :=
  jsRepsF (mRound dp) (s.data.length + 1) s.data

/-! ## Concrete inputs used by the claims -/

/-- The specification's concrete end-to-end example input. -/
def specEx : String :=
  "<svg><path d=\"M10.123456 10.789012 L20.345678 20.901234 L20.345678 20.901234 Z\" fill=\"\" /></svg>"

/-- A well-formed SVG document whose path repeats the same command three
times in a row. -/
def exTriple : String := "<svg><path d=\"M1 2 M1 2 M1 2 Z\"/></svg>"

/-- The input of the empty-attribute elimination demonstration: an `svg`
element with an empty double-quoted attribute, an empty single-quoted
attribute, and a non-empty attribute. -/
def exAttrs : String :=
  ⟨"<svg fill=\"\" stroke=".data ++ [Char.ofNat 39, Char.ofNat 39] ++ " x=\"1\"/>".data⟩

/-! ## Helper lemmas on the list utilities -/

theorem takeWhile_len_le (p : Char → Bool) : ∀ l : List Char, (l.takeWhile p).length ≤ l.length := by
  intro l
  induction l with
  | nil => simp
  | cons c cs ih =>
    by_cases h : p c
    · simp [List.takeWhile_cons, h]
      omega
    · simp [List.takeWhile_cons, h]

theorem dropWhile_len_le (p : Char → Bool) : ∀ l : List Char, (l.dropWhile p).length ≤ l.length := by
  intro l
  induction l with
  | nil => simp
  | cons c cs ih =>
    by_cases h : p c
    · simp [List.dropWhile_cons, h]
      omega
    · simp [List.dropWhile_cons, h]

theorem jsTrimL_len_le (l : List Char) : (jsTrimL l).length ≤ l.length := by
  unfold jsTrimL
  calc ((((l.dropWhile isJsWs).reverse).dropWhile isJsWs).reverse).length
      = (((l.dropWhile isJsWs).reverse).dropWhile isJsWs).length := List.length_reverse _
    _ ≤ ((l.dropWhile isJsWs).reverse).length := dropWhile_len_le _ _
    _ = (l.dropWhile isJsWs).length := List.length_reverse _
    _ ≤ l.length := dropWhile_len_le _ _

theorem startsWithL_len_le : ∀ pat l : List Char, startsWithL pat l = true → pat.length ≤ l.length := by
  intro pat
  induction pat with
  | nil => intro l _; simp
  | cons p ps ih =>
    intro l h
    match l with
    | [] => simp [startsWithL] at h
    | c :: cs =>
      simp only [startsWithL, Bool.and_eq_true] at h
      have := ih cs h.2
      simp only [List.length_cons]
      omega

theorem startsWithCi_len_le : ∀ pat l : List Char, startsWithCi pat l = true → pat.length ≤ l.length := by
  intro pat
  induction pat with
  | nil => intro l _; simp
  | cons p ps ih =>
    intro l h
    match l with
    | [] => simp [startsWithCi] at h
    | c :: cs =>
      simp only [startsWithCi, Bool.and_eq_true] at h
      have := ih cs h.2
      simp only [List.length_cons]
      omega

theorem findSubF_bounds : ∀ (f : Nat) (pat l : List Char) (i : Nat),
    findSubF f pat l = some i → i + pat.length ≤ l.length := by
  intro f
  induction f with
  | zero => intro pat l i h; simp [findSubF] at h
  | succ f ih =>
    intro pat l i h
    simp only [findSubF] at h
    by_cases hs : startsWithL pat l = true
    · rw [if_pos hs] at h
      cases h
      simpa using startsWithL_len_le pat l hs
    · rw [if_neg hs] at h
      match l with
      | [] => simp at h
      | c :: cs =>
        simp only [Option.map_eq_some'] at h
        obtain ⟨j, hj, rfl⟩ := h
        have := ih pat cs j hj
        simp only [List.length_cons]
        omega

/-! ## Generic scanner lemmas -/

/-- Well-behavedness of a matcher: a match is nonempty and fits in the
subject. -/
def MOk (m : List Char → Option (Nat × List Char)) : Prop :=
  ∀ l n r, m l = some (n, r) → 1 ≤ n ∧ n ≤ l.length

theorem jsRepAll_fuel_eq {m : List Char → Option (Nat × List Char)} (hm : MOk m) :
    ∀ (f f' : Nat) (l : List Char), l.length < f → l.length < f' →
      jsRepAll m f l = jsRepAll m f' l := by
  intro f
  induction f with
  | zero => intro f' l h _; exact absurd h (Nat.not_lt_zero _)
  | succ f ih =>
    intro f' l h h'
    match f', l with
    | 0, l => exact absurd h' (Nat.not_lt_zero _)
    | f' + 1, [] => rfl
    | f' + 1, c :: cs =>
      simp only [jsRepAll]
      cases hmc : m (c :: cs) with
      | none =>
        have : jsRepAll m f cs = jsRepAll m f' cs := by
          apply ih
          · simpa using Nat.lt_of_succ_lt_succ h
          · simpa using Nat.lt_of_succ_lt_succ h'
        rw [this]
      | some nr =>
        obtain ⟨n, r⟩ := nr
        have hb := hm _ _ _ hmc
        have hlen : (List.drop n (c :: cs)).length = (c :: cs).length - n := List.length_drop ..
        have heq : jsRepAll m f (List.drop n (c :: cs)) = jsRepAll m f' (List.drop n (c :: cs)) := by
          apply ih <;> (simp only [hlen, List.length_cons] at *; omega)
        show r ++ jsRepAll m f (List.drop n (c :: cs)) = r ++ jsRepAll m f' (List.drop n (c :: cs))
        rw [heq]

theorem jsRep_cons_none {m : List Char → Option (Nat × List Char)}
    (c : Char) (cs : List Char) (h : m (c :: cs) = none) :
    jsRep m (c :: cs) = c :: jsRep m cs := by
  unfold jsRep
  simp only [List.length_cons, jsRepAll, h]

theorem jsRep_match {m : List Char → Option (Nat × List Char)} (hm : MOk m)
    (l : List Char) (n : Nat) (r : List Char) (h : m l = some (n, r)) :
    jsRep m l = r ++ jsRep m (List.drop n l) := by
  obtain ⟨h1, h2⟩ := hm _ _ _ h
  match l with
  | [] => simp at h2; omega
  | c :: cs =>
    unfold jsRep
    simp only [List.length_cons, jsRepAll, h]
    congr 1
    have hlen : (List.drop n (c :: cs)).length = (c :: cs).length - n := List.length_drop ..
    apply jsRepAll_fuel_eq hm
    · simp only [hlen, List.length_cons] at *; omega
    · omega

theorem jsRepAll_len_le {m : List Char → Option (Nat × List Char)} (hm : MOk m)
    (hr : ∀ l n r, m l = some (n, r) → r.length ≤ n) :
    ∀ (f : Nat) (l : List Char), l.length < f → (jsRepAll m f l).length ≤ l.length := by
  intro f
  induction f with
  | zero => intro l h; exact absurd h (Nat.not_lt_zero _)
  | succ f ih =>
    intro l h
    match l with
    | [] => simp [jsRepAll]
    | c :: cs =>
      simp only [jsRepAll]
      cases hmc : m (c :: cs) with
      | none =>
        show (c :: jsRepAll m f cs).length ≤ (c :: cs).length
        have := ih cs (by simpa using Nat.lt_of_succ_lt_succ h)
        simp only [List.length_cons]
        omega
      | some nr =>
        obtain ⟨n, r⟩ := nr
        have hb := hm _ _ _ hmc
        have hrl := hr _ _ _ hmc
        have hlen : (List.drop n (c :: cs)).length = (c :: cs).length - n := List.length_drop ..
        show (r ++ jsRepAll m f (List.drop n (c :: cs))).length ≤ (c :: cs).length
        have hrec := ih (List.drop n (c :: cs)) (by simp only [hlen, List.length_cons] at *; omega)
        simp only [List.length_append] at *
        omega

theorem jsRep_len_le {m : List Char → Option (Nat × List Char)} (hm : MOk m)
    (hr : ∀ l n r, m l = some (n, r) → r.length ≤ n) (l : List Char) :
    (jsRep m l).length ≤ l.length :=
  jsRepAll_len_le hm hr _ l (by omega)

theorem jsRepAll_scanOk_len_le {m : List Char → Option (Nat × List Char)} (hm : MOk m) :
    ∀ (f : Nat) (l : List Char), l.length < f → scanOkF m f l = true →
      (jsRepAll m f l).length ≤ l.length := by
  intro f
  induction f with
  | zero => intro l h _; exact absurd h (Nat.not_lt_zero _)
  | succ f ih =>
    intro l h hok
    match l with
    | [] => simp [jsRepAll]
    | c :: cs =>
      simp only [jsRepAll]
      simp only [scanOkF] at hok
      cases hmc : m (c :: cs) with
      | none =>
        rw [hmc] at hok
        show (c :: jsRepAll m f cs).length ≤ (c :: cs).length
        have := ih cs (by simpa using Nat.lt_of_succ_lt_succ h) hok
        simp only [List.length_cons]
        omega
      | some nr =>
        obtain ⟨n, r⟩ := nr
        rw [hmc] at hok
        simp only [Bool.and_eq_true, decide_eq_true_eq] at hok
        have hb := hm _ _ _ hmc
        have hlen : (List.drop n (c :: cs)).length = (c :: cs).length - n := List.length_drop ..
        show (r ++ jsRepAll m f (List.drop n (c :: cs))).length ≤ (c :: cs).length
        have hrec := ih (List.drop n (c :: cs))
          (by simp only [hlen, List.length_cons] at *; omega) hok.2
        simp only [List.length_append] at *
        omega

theorem jsRep_scanOk_len_le {m : List Char → Option (Nat × List Char)} (hm : MOk m)
    (l : List Char) (hok : scanOk m l = true) : (jsRep m l).length ≤ l.length :=
  jsRepAll_scanOk_len_le hm _ l (by omega) hok

theorem jsRepAll_eq_or_lt {m : List Char → Option (Nat × List Char)} (hm : MOk m)
    (he : ∀ l n r, m l = some (n, r) → r = []) :
    ∀ (f : Nat) (l : List Char), l.length < f →
      jsRepAll m f l = l ∨ (jsRepAll m f l).length < l.length := by
  intro f
  induction f with
  | zero => intro l h; exact absurd h (Nat.not_lt_zero _)
  | succ f ih =>
    intro l h
    match l with
    | [] => left; simp [jsRepAll]
    | c :: cs =>
      simp only [jsRepAll]
      cases hmc : m (c :: cs) with
      | none =>
        rcases ih cs (by simpa using Nat.lt_of_succ_lt_succ h) with heq | hlt
        · left
          show c :: jsRepAll m f cs = c :: cs
          rw [heq]
        · right
          show (c :: jsRepAll m f cs).length < (c :: cs).length
          simp only [List.length_cons]
          omega
      | some nr =>
        obtain ⟨n, r⟩ := nr
        have hb := hm _ _ _ hmc
        have hre := he _ _ _ hmc
        subst hre
        have hlen : (List.drop n (c :: cs)).length = (c :: cs).length - n := List.length_drop ..
        right
        show ([] ++ jsRepAll m f (List.drop n (c :: cs))).length < (c :: cs).length
        have hrec := jsRepAll_len_le hm (fun l n r hh => by rw [he _ _ _ hh]; simp)
          f (List.drop n (c :: cs)) (by simp only [hlen, List.length_cons] at *; omega)
        simp only [List.nil_append] at *
        omega

theorem jsRep_eq_or_lt {m : List Char → Option (Nat × List Char)} (hm : MOk m)
    (he : ∀ l n r, m l = some (n, r) → r = []) (l : List Char) :
    jsRep m l = l ∨ (jsRep m l).length < l.length :=
  jsRepAll_eq_or_lt hm he _ l (by omega)

theorem jsRepAll_id_of_no_match {m : List Char → Option (Nat × List Char)} :
    ∀ (f : Nat) (l : List Char), jsHasMatchF m f l = false → jsRepAll m f l = l := by
  intro f
  induction f with
  | zero => intro l _; rfl
  | succ f ih =>
    intro l h
    match l with
    | [] => rfl
    | c :: cs =>
      simp only [jsHasMatchF, Bool.or_eq_false_iff] at h
      simp only [jsRepAll]
      cases hmc : m (c :: cs) with
      | none =>
        show c :: jsRepAll m f cs = c :: cs
        rw [ih cs h.2]
      | some nr =>
        rw [hmc] at h
        simp at h

theorem jsRep_id_of_no_match {m : List Char → Option (Nat × List Char)}
    (l : List Char) (h : jsHasMatch m l = false) : jsRep m l = l :=
  jsRepAll_id_of_no_match _ l h

/-! ## Matcher well-behavedness -/

theorem mXmlDecl_spec (l : List Char) (n : Nat) (r : List Char)
    (h : mXmlDecl l = some (n, r)) : (1 ≤ n ∧ n ≤ l.length) ∧ r = [] := by
  unfold mXmlDecl at h
  dsimp only at h
  split at h
  · next h1 =>
    split at h
    · next h2 =>
      injection h with h
      injection h with hn hr
      subst hn; subst hr
      have h5 : (5 : Nat) ≤ l.length := by
        have := startsWithCi_len_le _ _ h1
        simpa using this
      have hd : (l.drop 5).length = l.length - 5 := List.length_drop ..
      rw [hd] at h2
      refine ⟨⟨by omega, by omega⟩, rfl⟩
    · exact absurd h (by simp)
  · exact absurd h (by simp)

theorem mComment_spec (l : List Char) (n : Nat) (r : List Char)
    (h : mComment l = some (n, r)) : (1 ≤ n ∧ n ≤ l.length) ∧ r = [] := by
  unfold mComment at h
  dsimp only at h
  split at h
  · next h1 =>
    split at h
    · next i hi =>
      injection h with h
      injection h with hn hr
      subst hn; subst hr
      have h4 : (4 : Nat) ≤ l.length := by
        have := startsWithL_len_le _ _ h1
        simpa using this
      have hb := findSubF_bounds _ _ _ _ hi
      have hd : (l.drop 4).length = l.length - 4 := List.length_drop ..
      rw [hd] at hb
      simp only [List.length_cons, List.length_nil] at hb
      refine ⟨⟨by omega, by omega⟩, rfl⟩
    · exact absurd h (by simp)
  · exact absurd h (by simp)

theorem mWs_spec (l : List Char) (n : Nat) (r : List Char)
    (h : mWs l = some (n, r)) : (1 ≤ n ∧ n ≤ l.length) ∧ r = [' '] := by
  unfold mWs at h
  dsimp only at h
  split at h
  · exact absurd h (by simp)
  · next h1 =>
    injection h with h
    injection h with hn hr
    subst hn; subst hr
    have := takeWhile_len_le isJsWs l
    exact ⟨⟨by omega, by omega⟩, rfl⟩

theorem mTagWs_spec (l : List Char) (n : Nat) (r : List Char)
    (h : mTagWs l = some (n, r)) : (1 ≤ n ∧ n ≤ l.length) ∧ r.length ≤ n := by
  unfold mTagWs at h
  dsimp only at h
  split at h
  · next rest =>
    split at h
    · next h1 =>
      injection h with h
      injection h with hn hr
      subst hn; subst hr
      simp only [Bool.and_eq_true, decide_eq_true_eq] at h1
      have hk := takeWhile_len_le isJsWs rest
      have h2 := startsWithL_len_le _ _ h1.2
      have hd : (rest.drop (rest.takeWhile isJsWs).length).length
          = rest.length - (rest.takeWhile isJsWs).length := List.length_drop ..
      rw [hd] at h2
      simp only [List.length_cons, List.length_nil] at *
      constructor
      · constructor
        · omega
        · omega
      · omega
    · exact absurd h (by simp)
  · exact absurd h (by simp)

theorem mDecCore_bounds (l0 : List Char) (n : Nat) (ip fp : List Char)
    (h : mDecCore l0 = some (n, ip, fp)) : 1 ≤ n ∧ n ≤ l0.length := by
  unfold mDecCore at h
  dsimp only at h
  split at h
  · exact absurd h (by simp)
  · next h1 =>
    split at h
    · next r2 heq =>
      split at h
      · exact absurd h (by simp)
      · next h2 =>
        injection h with h
        injection h with hn hr
        subst hn
        have hip := takeWhile_len_le isDigitC l0
        have hfp := takeWhile_len_le isDigitC r2
        have hd : (l0.drop (l0.takeWhile isDigitC).length).length
            = l0.length - (l0.takeWhile isDigitC).length := List.length_drop ..
        rw [heq] at hd
        simp only [List.length_cons] at hd
        omega
    · exact absurd h (by simp)

theorem mDecRaw_bounds (l : List Char) (n : Nat) (neg : Bool) (ip fp : List Char)
    (h : mDecRaw l = some (n, neg, ip, fp)) : 1 ≤ n ∧ n ≤ l.length := by
  unfold mDecRaw at h
  split at h
  · next r =>
    split at h
    · next n' ip' fp' hc =>
      injection h with h
      injection h with hn h
      injection h with hneg h
      injection h with hip hfp
      subst hn
      have := mDecCore_bounds _ _ _ _ hc
      simp only [List.length_cons]
      omega
    · exact absurd h (by simp)
  · next hne =>
    split at h
    · next n' ip' fp' hc =>
      injection h with h
      injection h with hn h
      injection h with hneg h
      injection h with hip hfp
      subst hn
      exact mDecCore_bounds _ _ _ _ hc
    · exact absurd h (by simp)

theorem mRound_ok (dp : Nat) : MOk (mRound dp) := by
  intro l n r h
  unfold mRound at h
  split at h
  · next n' neg ip fp hd =>
    injection h with h
    injection h with hn hr
    subst hn
    exact mDecRaw_bounds _ _ _ _ _ hd
  · exact absurd h (by simp)

theorem mDec_ok : MOk mDec := by
  intro l n r h
  unfold mDec at h
  split at h
  · next n' neg ip fp hd =>
    injection h with h
    injection h with hn hr
    subst hn
    exact mDecRaw_bounds _ _ _ _ _ hd
  · exact absurd h (by simp)

theorem mRed_spec (l : List Char) (n : Nat) (r : List Char)
    (h : mRed l = some (n, r)) : (1 ≤ n ∧ n ≤ l.length) ∧ r.length ≤ n := by
  unfold mRed at h
  split at h
  · next n' r' hraw =>
    split at h
    · next hg =>
      injection h with h
      injection h with hn hr
      subst hn; subst hr
      exact ⟨⟨hg.1, hg.2.1⟩, hg.2.2⟩
    · exact absurd h (by simp)
  · exact absurd h (by simp)

theorem mAttrD_spec (l : List Char) (n : Nat) (r : List Char)
    (h : mAttrD l = some (n, r)) : (1 ≤ n ∧ n ≤ l.length) ∧ r = [] := by
  unfold mAttrD at h
  dsimp only at h
  split at h
  · exact absurd h (by simp)
  · next h1 =>
    split at h
    · exact absurd h (by simp)
    · next h2 =>
      split at h
      · next h3 =>
        injection h with h
        injection h with hn hr
        subst hn; subst hr
        have hw := takeWhile_len_le isJsWs l
        have hnm := takeWhile_len_le isNameC (l.drop (l.takeWhile isJsWs).length)
        have h3' := startsWithL_len_le _ _ h3
        have hd1 : (l.drop (l.takeWhile isJsWs).length).length
            = l.length - (l.takeWhile isJsWs).length := List.length_drop ..
        have hd2 : ((l.drop (l.takeWhile isJsWs).length).drop
              ((l.drop (l.takeWhile isJsWs).length).takeWhile isNameC).length).length
            = (l.drop (l.takeWhile isJsWs).length).length -
              ((l.drop (l.takeWhile isJsWs).length).takeWhile isNameC).length := List.length_drop ..
        rw [hd2, hd1] at h3'
        rw [hd1] at hnm
        simp only [List.length_cons, List.length_nil] at h3'
        refine ⟨⟨by omega, by omega⟩, rfl⟩
      · exact absurd h (by simp)

theorem mAttrS_spec (l : List Char) (n : Nat) (r : List Char)
    (h : mAttrS l = some (n, r)) : (1 ≤ n ∧ n ≤ l.length) ∧ r = [] := by
  unfold mAttrS at h
  dsimp only at h
  split at h
  · exact absurd h (by simp)
  · next h1 =>
    split at h
    · exact absurd h (by simp)
    · next h2 =>
      split at h
      · next h3 =>
        injection h with h
        injection h with hn hr
        subst hn; subst hr
        have hw := takeWhile_len_le isJsWs l
        have hnm := takeWhile_len_le isNameC (l.drop (l.takeWhile isJsWs).length)
        have h3' := startsWithL_len_le _ _ h3
        have hd1 : (l.drop (l.takeWhile isJsWs).length).length
            = l.length - (l.takeWhile isJsWs).length := List.length_drop ..
        have hd2 : ((l.drop (l.takeWhile isJsWs).length).drop
              ((l.drop (l.takeWhile isJsWs).length).takeWhile isNameC).length).length
            = (l.drop (l.takeWhile isJsWs).length).length -
              ((l.drop (l.takeWhile isJsWs).length).takeWhile isNameC).length := List.length_drop ..
        rw [hd2, hd1] at h3'
        rw [hd1] at hnm
        simp only [List.length_cons, List.length_nil] at h3'
        refine ⟨⟨by omega, by omega⟩, rfl⟩
      · exact absurd h (by simp)

theorem mXmlDecl_ok : MOk mXmlDecl := fun l n r h => (mXmlDecl_spec l n r h).1

theorem mComment_ok : MOk mComment := fun l n r h => (mComment_spec l n r h).1

theorem mWs_ok : MOk mWs := fun l n r h => (mWs_spec l n r h).1

theorem mTagWs_ok : MOk mTagWs := fun l n r h => (mTagWs_spec l n r h).1

theorem mRed_ok : MOk mRed := fun l n r h => (mRed_spec l n r h).1

theorem mAttrD_ok : MOk mAttrD := fun l n r h => (mAttrD_spec l n r h).1

theorem mAttrS_ok : MOk mAttrS := fun l n r h => (mAttrS_spec l n r h).1

theorem mWs_r_le : ∀ l n r, mWs l = some (n, r) → r.length ≤ n := by
  intro l n r h
  have hs := mWs_spec l n r h
  rw [hs.2]
  simpa using hs.1.1

theorem mWs_cons_pos (c : Char) (cs : List Char) (h : isJsWs c = true) :
    mWs (c :: cs) = some (1 + (cs.takeWhile isJsWs).length, [' ']) := by
  unfold mWs
  dsimp only
  rw [List.takeWhile_cons, h]
  simp [Nat.add_comm]

theorem mWs_cons_neg (c : Char) (cs : List Char) (h : isJsWs c = false) :
    mWs (c :: cs) = none := by
  unfold mWs
  dsimp only
  rw [List.takeWhile_cons, h]
  simp

theorem jsRepAll_mWs_strict :
    ∀ (f : Nat) (l : List Char), l.length < f → hasWsRun2 l = true →
      (jsRepAll mWs f l).length < l.length := by
  intro f
  induction f with
  | zero => intro l h _; exact absurd h (Nat.not_lt_zero _)
  | succ f ih =>
    intro l h hr
    match l with
    | [] => simp [hasWsRun2] at hr
    | [c] => simp [hasWsRun2] at hr
    | c1 :: c2 :: rest =>
      by_cases h1 : isJsWs c1 = true
      · have hm := mWs_cons_pos c1 (c2 :: rest) h1
        simp only [jsRepAll, hm]
        by_cases h2 : isJsWs c2 = true
        · -- run of length ≥ 2 at the head: the match shrinks strictly
          have hk : 1 ≤ ((c2 :: rest).takeWhile isJsWs).length := by
            rw [List.takeWhile_cons, h2]
            simp
          set n := 1 + ((c2 :: rest).takeWhile isJsWs).length with hn
          have hnle : n ≤ (c1 :: c2 :: rest).length := by
            have := takeWhile_len_le isJsWs (c2 :: rest)
            simp only [List.length_cons] at *
            omega
          have hdl : (List.drop n (c1 :: c2 :: rest)).length
              = (c1 :: c2 :: rest).length - n := List.length_drop ..
          have hrec := jsRepAll_len_le mWs_ok mWs_r_le f (List.drop n (c1 :: c2 :: rest))
            (by simp only [hdl, List.length_cons] at *; omega)
          show ([' '] ++ jsRepAll mWs f (List.drop n (c1 :: c2 :: rest))).length
              < (c1 :: c2 :: rest).length
          simp only [List.length_append, List.length_cons, List.length_nil] at *
          omega
        · -- singleton run: recurse on the rest, which still has the double run
          have h2' : isJsWs c2 = false := by simpa using h2
          have hk : ((c2 :: rest).takeWhile isJsWs).length = 0 := by
            rw [List.takeWhile_cons, h2']
            simp
          rw [hk] at hm ⊢
          have hr2 : hasWsRun2 (c2 :: rest) = true := by
            simp only [hasWsRun2, h2', Bool.and_false, Bool.false_or] at hr
            exact hr
          have hrec := ih (c2 :: rest) (by simp only [List.length_cons] at *; omega) hr2
          show ([' '] ++ jsRepAll mWs f (List.drop 1 (c1 :: c2 :: rest))).length
              < (c1 :: c2 :: rest).length
          simp only [List.drop_succ_cons, List.drop_zero, List.length_append,
            List.length_cons, List.length_nil] at *
          omega
      · have h1' : isJsWs c1 = false := by simpa using h1
        have hm := mWs_cons_neg c1 (c2 :: rest) h1'
        simp only [jsRepAll, hm]
        have hr2 : hasWsRun2 (c2 :: rest) = true := by
          simp only [hasWsRun2, h1', Bool.false_and, Bool.false_or] at hr
          exact hr
        have hrec := ih (c2 :: rest) (by simp only [List.length_cons] at *; omega) hr2
        show (c1 :: jsRepAll mWs f (c2 :: rest)).length < (c1 :: c2 :: rest).length
        simp only [List.length_cons] at *
        omega

theorem jsRep_mWs_strict (l : List Char) (h : hasWsRun2 l = true) :
    (jsRep mWs l).length < l.length :=
  jsRepAll_mWs_strict _ l (by omega) h

/-! ## Per-pass length corollaries -/

theorem xml_len_le (l : List Char) : (jsRep mXmlDecl l).length ≤ l.length :=
  jsRep_len_le mXmlDecl_ok
    (fun l n r h => by rw [(mXmlDecl_spec l n r h).2]; exact Nat.zero_le _) l

theorem comment_len_le (l : List Char) : (jsRep mComment l).length ≤ l.length :=
  jsRep_len_le mComment_ok
    (fun l n r h => by rw [(mComment_spec l n r h).2]; exact Nat.zero_le _) l

theorem ws_len_le (l : List Char) : (jsRep mWs l).length ≤ l.length :=
  jsRep_len_le mWs_ok mWs_r_le l

theorem tagWs_len_le (l : List Char) : (jsRep mTagWs l).length ≤ l.length :=
  jsRep_len_le mTagWs_ok (fun l n r h => (mTagWs_spec l n r h).2) l

theorem red_len_le (l : List Char) : (jsRep mRed l).length ≤ l.length :=
  jsRep_len_le mRed_ok (fun l n r h => (mRed_spec l n r h).2) l

theorem attrD_len_le (l : List Char) : (jsRep mAttrD l).length ≤ l.length :=
  jsRep_len_le mAttrD_ok
    (fun l n r h => by rw [(mAttrD_spec l n r h).2]; exact Nat.zero_le _) l

theorem attrS_len_le (l : List Char) : (jsRep mAttrS l).length ≤ l.length :=
  jsRep_len_le mAttrS_ok
    (fun l n r h => by rw [(mAttrS_spec l n r h).2]; exact Nat.zero_le _) l

theorem xml_eq_or_lt (l : List Char) :
    jsRep mXmlDecl l = l ∨ (jsRep mXmlDecl l).length < l.length :=
  jsRep_eq_or_lt mXmlDecl_ok (fun l n r h => (mXmlDecl_spec l n r h).2) l

theorem comment_eq_or_lt (l : List Char) :
    jsRep mComment l = l ∨ (jsRep mComment l).length < l.length :=
  jsRep_eq_or_lt mComment_ok (fun l n r h => (mComment_spec l n r h).2) l

/-! ## Digit-string lemmas for the rounding pass -/

theorem digitChar_ne_dot (d : Nat) (h : d < 10) : digitChar d ≠ '.' := by
  interval_cases d <;> decide

theorem natDigitsAux_ne_dot : ∀ (f n : Nat) (c : Char), c ∈ natDigitsAux f n → c ≠ '.' := by
  intro f
  induction f with
  | zero => intro n c hc; simp [natDigitsAux] at hc
  | succ f ih =>
    intro n c hc
    simp only [natDigitsAux] at hc
    by_cases h : n < 10
    · rw [if_pos h] at hc
      simp only [List.mem_singleton] at hc
      subst hc
      exact digitChar_ne_dot n h
    · rw [if_neg h] at hc
      simp only [List.mem_append, List.mem_singleton] at hc
      rcases hc with hc | hc
      · exact ih _ _ hc
      · subst hc
        exact digitChar_ne_dot _ (Nat.mod_lt _ (by omega))

theorem natDigitsAux_len_le : ∀ (f k n : Nat), n < 10 ^ k → 1 ≤ k →
    (natDigitsAux f n).length ≤ k := by
  intro f
  induction f with
  | zero => intro k n _ _; simp [natDigitsAux]
  | succ f ih =>
    intro k n hn hk
    simp only [natDigitsAux]
    by_cases h : n < 10
    · rw [if_pos h]
      simpa using hk
    · rw [if_neg h]
      have hk2 : 2 ≤ k := by
        by_contra hc
        have : k = 1 := by omega
        subst this
        simp at hn
        omega
      have hdiv : n / 10 < 10 ^ (k - 1) := by
        rw [Nat.div_lt_iff_lt_mul (by omega)]
        have : 10 ^ (k - 1) * 10 = 10 ^ k := by
          rw [← Nat.pow_succ]
          congr 1
          omega
        omega
      have := ih (k - 1) (n / 10) hdiv (by omega)
      simp only [List.length_append, List.length_cons, List.length_nil]
      omega

theorem takeWhile_all_true (p : Char → Bool) :
    ∀ l : List Char, (∀ c ∈ l, p c = true) → l.takeWhile p = l := by
  intro l
  induction l with
  | nil => intro _; rfl
  | cons c cs ih =>
    intro h
    have hc := h c (by simp)
    simp [List.takeWhile_cons, hc, ih (fun x hx => h x (by simp [hx]))]

theorem takeWhile_append_all (p : Char → Bool) :
    ∀ (a b : List Char), (∀ c ∈ a, p c = true) →
      (a ++ b).takeWhile p = a ++ b.takeWhile p := by
  intro a
  induction a with
  | nil => intro b _; rfl
  | cons c cs ih =>
    intro b h
    have hc := h c (by simp)
    simp [List.cons_append, List.takeWhile_cons, hc, ih b (fun x hx => h x (by simp [hx]))]

theorem fracLenL_no_dot (l : List Char) (h : ∀ c ∈ l, c ≠ '.') : fracLenL l = 0 := by
  unfold fracLenL
  dsimp only
  have hall : ∀ c ∈ l.reverse, (c != '.') = true := by
    intro c hc
    simpa using h c (List.mem_reverse.mp hc)
  rw [takeWhile_all_true _ _ hall]
  simp

theorem fracLenL_append_dot (pre fr : List Char) (h : ∀ c ∈ fr, c ≠ '.') :
    fracLenL (pre ++ '.' :: fr) = fr.length := by
  unfold fracLenL
  dsimp only
  have hrev : (pre ++ '.' :: fr).reverse = fr.reverse ++ '.' :: pre.reverse := by
    simp
  rw [hrev]
  have hall : ∀ c ∈ fr.reverse, (c != '.') = true := by
    intro c hc
    simpa using h c (List.mem_reverse.mp hc)
  rw [takeWhile_append_all _ _ _ hall]
  rw [List.takeWhile_cons]
  simp only [bne_self_eq_false, Bool.false_eq_true, if_false]
  simp only [List.append_nil, List.length_reverse, List.length_append, List.length_cons]
  have : fr.length ≠ fr.length + (pre.length + 1) := by omega
  rw [if_neg (by omega)]

theorem toFixed_fracLen (neg : Bool) (m : Nat) (e2 : Int) (dp : Nat)
    (h : valGe m e2 (10 ^ 21) = false) :
    fracLenL (toFixedChars (JsNum.fin neg m e2) dp) = dp := by
  unfold toFixedChars
  dsimp only
  rw [h]
  simp only [Bool.false_eq_true, if_false]
  by_cases hdp : dp = 0
  · subst hdp
    rw [if_pos rfl]
    apply fracLenL_no_dot
    intro c hc
    simp only [List.mem_append] at hc
    rcases hc with hc | hc
    · by_cases hs : (neg && decide (m ≠ 0)) = true
      · rw [if_pos hs] at hc
        simp only [List.mem_singleton] at hc
        subst hc
        decide
      · rw [if_neg hs] at hc
        simp at hc
    · exact natDigitsAux_ne_dot _ _ _ hc
  · rw [if_neg hdp]
    rw [show ∀ (s i : List Char) (fr : List Char), s ++ i ++ '.' :: fr = (s ++ i) ++ '.' :: fr by
      intro s i fr; rw [List.append_assoc]]
    rw [fracLenL_append_dot]
    · have hlt : (if 0 ≤ e2 then m * 2 ^ e2.toNat * 10 ^ dp
          else rhaDiv (m * 10 ^ dp) (2 ^ (-e2).toNat)) % 10 ^ dp < 10 ^ dp :=
        Nat.mod_lt _ (Nat.pos_pow_of_pos _ (by omega))
      have hle := natDigitsAux_len_le
        ((if 0 ≤ e2 then m * 2 ^ e2.toNat * 10 ^ dp
          else rhaDiv (m * 10 ^ dp) (2 ^ (-e2).toNat)) % 10 ^ dp + 1) dp
        ((if 0 ≤ e2 then m * 2 ^ e2.toNat * 10 ^ dp
          else rhaDiv (m * 10 ^ dp) (2 ^ (-e2).toNat)) % 10 ^ dp) hlt (by omega)
      simp only [List.length_append, List.length_replicate]
      unfold natDigits
      omega
    · intro c hc
      simp only [List.mem_append] at hc
      rcases hc with hc | hc
      · have := List.eq_of_mem_replicate hc
        subst this
        decide
      · exact natDigitsAux_ne_dot _ _ _ hc

theorem jsRepsF_round_fracLen (dp : Nat) :
    ∀ (f : Nat) (l : List Char), litsOkF f l = true →
      ∀ r ∈ jsRepsF (mRound dp) f l, fracLenL r = dp := by
  intro f
  induction f with
  | zero => intro l _ r hr; simp [jsRepsF] at hr
  | succ f ih =>
    intro l hok r hr
    match l with
    | [] => simp [jsRepsF] at hr
    | c :: cs =>
      simp only [jsRepsF, litsOkF] at hr hok
      cases hd : mDecRaw (c :: cs) with
      | none =>
        rw [hd] at hok
        have hm : mRound dp (c :: cs) = none := by
          unfold mRound
          rw [hd]
        rw [hm] at hr
        exact ih cs hok r hr
      | some q =>
        obtain ⟨n, neg, ip, fp⟩ := q
        rw [hd] at hok
        simp only [Bool.and_eq_true] at hok
        have hm : mRound dp (c :: cs) = some (n, toFixedChars (ndOfLit neg ip fp) dp) := by
          unfold mRound
          rw [hd]
        rw [hm] at hr
        simp only [List.mem_cons] at hr
        rcases hr with hr | hr
        · subst hr
          cases hnd : ndOfLit neg ip fp with
          | fin neg' m' e2' =>
            rw [hnd] at hok
            have hv : valGe m' e2' (10 ^ 21) = false := by
              have := hok.1
              simp only [Bool.not_eq_true'] at this
              exact this
            exact toFixed_fracLen neg' m' e2' dp hv
          | inf neg' =>
            rw [hnd] at hok
            simp at hok
        · exact ih _ hok.2 r hr

theorem jsHasMatchF_congr {m1 m2 : List Char → Option (Nat × List Char)}
    (h : ∀ l, (m1 l).isSome = (m2 l).isSome) :
    ∀ (f : Nat) (l : List Char), jsHasMatchF m1 f l = jsHasMatchF m2 f l := by
  intro f
  induction f with
  | zero => intro l; rfl
  | succ f ih =>
    intro l
    match l with
    | [] => rfl
    | c :: cs =>
      simp only [jsHasMatchF, h, ih cs]

theorem mRound_isSome_eq_mDec (dp : Nat) (l : List Char) :
    (mRound dp l).isSome = (mDec l).isSome := by
  unfold mRound mDec
  cases hd : mDecRaw l with
  | none => rfl
  | some q => obtain ⟨n, neg, ip, fp⟩ := q; rfl

/-! ## Formatter lemmas -/

theorem splitNl_no_newline : ∀ l : List Char, '\n' ∉ l → splitNl l = [l] := by
  intro l
  induction l with
  | nil => intro _; rfl
  | cons c t ih =>
    intro h
    have hc : ¬ c = '\n' := fun hh => h (by simp [hh])
    simp only [splitNl, if_neg hc]
    rw [ih (fun hh => h (by simp [hh]))]

theorem indentFold_single (ind : Nat) (x : List Char) : indentFold ind [x] = [x] := by
  simp [indentFold]

theorem joinNl_single (x : List Char) : joinNl [x] = x := rfl

theorem strLen_mk (l : List Char) : (String.mk l).length = l.length := rfl

/-! ## Length chain for the optimizer -/

theorem optStage3_len_le (l : List Char) : (optStage3 l).length ≤ l.length := by
  unfold optStage3
  calc (jsRep mTagWs (jsRep mWs (jsRep mComment (jsRep mXmlDecl l)))).length
      ≤ (jsRep mWs (jsRep mComment (jsRep mXmlDecl l))).length := tagWs_len_le _
    _ ≤ (jsRep mComment (jsRep mXmlDecl l)).length := ws_len_le _
    _ ≤ (jsRep mXmlDecl l).length := comment_len_le _
    _ ≤ l.length := xml_len_le _

theorem optTail_len_le (l : List Char) :
    (jsTrimL (jsRep mAttrS (jsRep mAttrD (jsRep mRed l)))).length ≤ l.length := by
  calc (jsTrimL (jsRep mAttrS (jsRep mAttrD (jsRep mRed l)))).length
      ≤ (jsRep mAttrS (jsRep mAttrD (jsRep mRed l))).length := jsTrimL_len_le _
    _ ≤ (jsRep mAttrD (jsRep mRed l)).length := attrS_len_le _
    _ ≤ (jsRep mRed l).length := attrD_len_le _
    _ ≤ l.length := red_len_le _

theorem strEta (s : String) : String.mk s.data = s := rfl

/-- `optimizeSvgPaths` composes the named helper passes in the source's order:
after the strip/collapse prefix (`optStage3`) it is exactly
`roundCoordinates(·, 1)` — which never throws at one decimal place — followed
by `removeRedundantCommands`, `removeEmptyAttributes` and the final trim. -/
theorem optimizeSvgPaths_via_helpers (s : String) :
    roundCoordinates ⟨optStage3 s.data⟩ 1
      = some ⟨jsRep (mRound 1) (optStage3 s.data)⟩ ∧
    optimizeSvgPaths s
      = ⟨jsTrimL (removeEmptyAttributes (removeRedundantCommands
          ⟨jsRep (mRound 1) (optStage3 s.data)⟩)).data⟩ := by
  constructor
  · unfold roundCoordinates
    rw [if_neg (by rintro ⟨_, hb⟩; omega)]
  · rfl

/-! ## Claim C1 — idempotence of the optimizer -/

/-- Claim C1, counterexample: on a well-formed SVG document whose path repeats
the same command three times, the redundant-command pass removes only one
duplication per application, so applying the optimizer twice shrinks the
result further and `optimize` is not idempotent. -/
theorem C1_counterexample :
    optimizeSvgPaths exTriple = "<svg><path d=\"M 1 2 M1 2 Z\"/></svg>" ∧
    optimizeSvgPaths (optimizeSvgPaths exTriple) = "<svg><path d=\"M 1 2 Z\"/></svg>" ∧
    optimizeSvgPaths (optimizeSvgPaths exTriple) ≠ optimizeSvgPaths exTriple :=
  ⟨by decide, by decide, by decide⟩

/-- Claim C1 (amended): `optimize` is not idempotent on well-formed SVG
strings in general — a triple-repeated command needs two applications, and
literals whose value reaches `10^21` are a further source of re-rounding on a
second pass through `toFixed`'s exponential fallback — but applying it twice
does equal applying it once on the specification's concrete end-to-end
example, which is what this theorem states. -/
theorem C1_amended_idempotent_on_example :
    optimizeSvgPaths (optimizeSvgPaths specEx) = optimizeSvgPaths specEx := by
  decide

/-! ## Claim C2 — formatter stability on already-formatted input -/

/-- Claim C2, counterexample: the formatter's indentation fold prefixes every
line with `indent * depth` spaces without stripping existing indentation, so a
second application of `formatSvgString` doubles the indentation of its own
(multi-line) output and stability on the image fails. -/
theorem C2_counterexample :
    formatSvgStringD "<svg><rect/></svg>" = "<svg>\n  <rect/>\n</svg>" ∧
    formatSvgStringD (formatSvgStringD "<svg><rect/></svg>")
      = "<svg>\n    <rect/>\n</svg>" ∧
    formatSvgStringD (formatSvgStringD "<svg><rect/></svg>")
      ≠ formatSvgStringD "<svg><rect/></svg>" :=
  ⟨by decide, by decide, by decide⟩

/-- Claim C2 (amended): the formatter is stable only on single-line documents:
it is the identity on every nonempty, trimmed string that contains no newline,
no `><` adjacency, and no `xml:space="preserve"` match.  On multi-line
already-formatted output it re-indents the already-indented lines instead. -/
theorem C2_amended_fixed_on_single_line (s : String) (h0 : s ≠ "")
    (h1 : jsTrimL s.data = s.data) (h2 : preserveScan s.data = (s.data, []))
    (h3 : jsRep mGtLt s.data = s.data) (h4 : '\n' ∉ s.data) :
    formatSvgStringD s = s := by
  have hne : ¬ s.data = [] := by
    intro hh
    apply h0
    cases s
    simp only at hh
    rw [hh]
  unfold formatSvgStringD formatSvgString
  rw [if_neg hne]
  dsimp only
  rw [h1, if_pos rfl, h2]
  dsimp only
  rw [h3, splitNl_no_newline s.data h4, indentFold_single, joinNl_single]
  have hneq : ¬ s.data = "<svg>\n</svg>".data := by
    intro hh
    apply h4
    rw [hh]
    decide
  rw [if_neg hneq]
  exact strEta s

/-- Witness for claim C2's amended theorem at the concrete single-line input
`<rect/>`. -/
theorem C2_amended_witness :
    ("<rect/>" : String) ≠ "" ∧
    jsTrimL "<rect/>".data = "<rect/>".data ∧
    preserveScan "<rect/>".data = ("<rect/>".data, []) ∧
    jsRep mGtLt "<rect/>".data = "<rect/>".data ∧
    '\n' ∉ "<rect/>".data ∧
    formatSvgStringD "<rect/>" = "<rect/>" :=
  ⟨by decide, by decide, by decide, by decide, by decide,
   C2_amended_fixed_on_single_line "<rect/>" (by decide) (by decide) (by decide)
     (by decide) (by decide)⟩

/-! ## Claim C3 — strict size decrease in the presence of a redundancy -/

/-- Claim C3, counterexample: `<a b="9.99"/>` contains a numeric literal with
more than one decimal place (a targeted redundancy), yet rounding carries into
a new integer digit (`9.99` → `10.0`) and the optimized string has exactly the
same length as the input, so the strict decrease fails. -/
theorem C3_counterexample :
    specHasMultiDecimal "<a b=\"9.99\"/>".data = true ∧
    optimizeSvgPaths "<a b=\"9.99\"/>" = "<a b=\"10.0\"/>" ∧
    (optimizeSvgPaths "<a b=\"9.99\"/>").length = ("<a b=\"9.99\"/>" : String).length :=
  ⟨by decide, by decide, by decide⟩

/-- Claim C3 (amended): the optimizer never lengthens its input provided no
rounding replacement is longer than the literal it replaces (which can fail
only through decimal-carry growth), and the decrease is strict whenever the
input contains a whitespace run of length at least two (the extra-whitespace
redundancy); for the other redundancy kinds strictness can fail, as the
`9.99` carry shows. -/
theorem C3_amended_len (s : String)
    (hrd : scanOk (mRound 1) (optStage3 s.data) = true) :
    (optimizeSvgPaths s).length ≤ s.length ∧
      (hasWsRun2 s.data = true → (optimizeSvgPaths s).length < s.length) := by
  have hs : s.length = s.data.length := rfl
  have hopt : (optimizeSvgPaths s).length
      = (jsTrimL (jsRep mAttrS (jsRep mAttrD (jsRep mRed
          (jsRep (mRound 1) (optStage3 s.data)))))).length := rfl
  have hB : (jsRep (mRound 1) (optStage3 s.data)).length ≤ (optStage3 s.data).length :=
    jsRep_scanOk_len_le (mRound_ok 1) _ hrd
  have hT := optTail_len_le (jsRep (mRound 1) (optStage3 s.data))
  have hA := optStage3_len_le s.data
  constructor
  · rw [hopt, hs]
    omega
  · intro hws
    rcases xml_eq_or_lt s.data with heq | hlt
    · rcases comment_eq_or_lt (jsRep mXmlDecl s.data) with heq2 | hlt2
      · -- both strip passes are the identity: the whitespace collapse is strict
        rw [heq] at heq2
        have hwsStrict := jsRep_mWs_strict s.data hws
        have hA' : (optStage3 s.data).length < s.data.length := by
          unfold optStage3
          rw [heq, heq2]
          calc (jsRep mTagWs (jsRep mWs s.data)).length
              ≤ (jsRep mWs s.data).length := tagWs_len_le _
            _ < s.data.length := hwsStrict
        rw [hopt, hs]
        omega
      · -- the comment strip itself shrank strictly
        rw [heq] at hlt2
        have hA' : (optStage3 s.data).length < s.data.length := by
          unfold optStage3
          rw [heq]
          have h1 := tagWs_len_le (jsRep mWs (jsRep mComment s.data))
          have h2 := ws_len_le (jsRep mComment s.data)
          omega
        rw [hopt, hs]
        omega
    · -- the declaration strip itself shrank strictly
      have hA' : (optStage3 s.data).length < s.data.length := by
        unfold optStage3
        have h1 := tagWs_len_le (jsRep mWs (jsRep mComment (jsRep mXmlDecl s.data)))
        have h2 := ws_len_le (jsRep mComment (jsRep mXmlDecl s.data))
        have h3 := comment_len_le (jsRep mXmlDecl s.data)
        omega
      rw [hopt, hs]
      omega

/-- Witness for claim C3's amended theorem at a concrete input with a double
space and a two-decimal literal. -/
theorem C3_amended_witness :
    scanOk (mRound 1) (optStage3 "<a  b=\"1.55\"/>".data) = true ∧
    hasWsRun2 "<a  b=\"1.55\"/>".data = true ∧
    (optimizeSvgPaths "<a  b=\"1.55\"/>").length < ("<a  b=\"1.55\"/>" : String).length :=
  ⟨by decide, by decide, (C3_amended_len "<a  b=\"1.55\"/>" (by decide)).2 (by decide)⟩

/-! ## Claim C4 — coordinate rounding -/

/-- Claim C4, counterexample: `parseFloat` goes through binary64, and the
double nearest to `0.35` is `0.34999999999999997…`, so the code rounds
`0.35` down to `0.3`, while round-half-away-from-zero on the literal's exact
decimal value (the specification's wording, rendered by
`specRoundCoordinates`) yields `0.4`. -/
theorem C4_counterexample :
    roundCoordinates "0.35" 1 = some "0.3" ∧
    specRoundCoordinates "0.35" 1 = "0.4" ∧
    some (specRoundCoordinates "0.35" 1) ≠ roundCoordinates "0.35" 1 :=
  ⟨by decide, by decide, by decide⟩

/-- Claim C4 (amended): every literal matched by the rounding pass is replaced
by a string with exactly `N` fractional digits (none for `N = 0`), where the
rounding is round-to-nearest through the literal's binary64 value with ties
away from zero — not round-half-away-from-zero on the exact decimal value —
provided each matched literal's double value stays below `10^21` (`litsOk`,
which always holds for literals with at most seventeen integer digits); and a
string without any match of the literal pattern is returned untouched, so
integer literals are never rewritten. -/
theorem C4_amended (s : String) (dp : Nat) (hl : litsOk s.data = true) :
    (∀ r ∈ roundRepls s dp, fracLenL r = dp) ∧
    (jsHasMatch mDec s.data = false → roundCoordinates s dp = some s) := by
  constructor
  · intro r hr
    exact jsRepsF_round_fracLen dp _ s.data hl r hr
  · intro hnm
    unfold roundCoordinates
    rw [if_neg (by rintro ⟨a, _⟩; rw [hnm] at a; cases a)]
    have hrm : jsHasMatch (mRound dp) s.data = false := by
      unfold jsHasMatch
      rw [jsHasMatchF_congr (mRound_isSome_eq_mDec dp) _ s.data]
      exact hnm
    rw [jsRep_id_of_no_match s.data hrm, strEta s]

/-- Witness for claim C4's amended theorem: a two-literal input whose
replacements both carry exactly one fractional digit (including the double
tie `1.25` → `1.3` and the carry `9.99` → `10.0`). -/
theorem C4_amended_witness :
    litsOk "x 12 1.25 9.99 y".data = true ∧
    roundCoordinates "x 12 1.25 9.99 y" 1 = some "x 12 1.3 10.0 y" ∧
    roundRepls "x 12 1.25 9.99 y" 1 = ["1.3".data, "10.0".data] ∧
    (∀ r ∈ roundRepls "x 12 1.25 9.99 y" 1, fracLenL r = 1) :=
  ⟨by decide, by decide, by decide, (C4_amended "x 12 1.25 9.99 y" 1 (by decide)).1⟩

/-! ## Claim C5 — the concrete end-to-end example -/

/-- Claim C5, counterexample: the replacement template `'$1 $2 $3'` inserts
single spaces, so the collapsed command in the optimized example reads
`L 20.3 20.9`; the exact substring `L20.3 20.9` named by the claim does not
occur in the output at all. -/
theorem C5_counterexample :
    optimizeSvgPaths specEx = "<svg><path d=\"M10.1 10.8 L 20.3 20.9 Z\" /></svg>" ∧
    containsSub "L20.3 20.9".data (optimizeSvgPaths specEx).data = false :=
  ⟨by decide, by decide⟩

/-- Claim C5 (amended): on the specification's end-to-end example the
optimized output contains `M10.1 10.8`, no `10.123456`, no `fill=""`, and
exactly one occurrence of the collapsed duplicate — written `L 20.3 20.9`,
with the spaces the replacement template introduces. -/
theorem C5_amended :
    containsSub "M10.1 10.8".data (optimizeSvgPaths specEx).data = true ∧
    containsSub "10.123456".data (optimizeSvgPaths specEx).data = false ∧
    containsSub "fill=\"\"".data (optimizeSvgPaths specEx).data = false ∧
    countSub "L 20.3 20.9".data (optimizeSvgPaths specEx).data = 1 :=
  ⟨by decide, by decide, by decide, by decide⟩

/-! ## Claim C6 — the compression-ratio helper -/

/-- Claim C6: `calculateCompressionRatio` returns `0` for a zero original size
and `(original - compressed) / original` otherwise; in particular it maps
`(0, 0)` to `0`, `(100, 100)` to `0`, `(100, 0)` to `1`, and `(100, 150)` to
`-0.5`. -/
theorem C6_compressionRatio :
    (∀ o c : ℚ, o ≠ 0 → calculateCompressionRatio o c = (o - c) / o) ∧
    (∀ c : ℚ, calculateCompressionRatio 0 c = 0) ∧
    ( calculateCompressionRatio 0 0 = 0) ∧
    ( calculateCompressionRatio 100 100 = 0) ∧
    ( calculateCompressionRatio 100 0 = 1) ∧
    ( calculateCompressionRatio 100 150 = -(1/2)) := by
  refine ⟨?_, ?_, ?_, ?_, ?_, ?_⟩
  · intro o c h
    unfold calculateCompressionRatio
    rw [if_neg h]
  · intro c
    unfold calculateCompressionRatio
    rw [if_pos rfl]
  · norm_num [calculateCompressionRatio]
  · norm_num [calculateCompressionRatio]
  · norm_num [calculateCompressionRatio]
  · norm_num [calculateCompressionRatio]

/-- Witness for claim C6's theorem, discharging the nonzero-denominator
hypothesis at `(100, 150)`. -/
theorem C6_witness :
    (100 : ℚ) ≠ 0 ∧ calculateCompressionRatio 100 150 = ((100 : ℚ) - 150) / 100 :=
  ⟨by norm_num, C6_compressionRatio.1 100 150 (by norm_num)⟩

/-! ## Claim C7 — empty-attribute elimination -/

/-- Claim C7, counterexample: the removal regexes require at least one
whitespace character before the attribute name, so an empty attribute at the
very start of the string survives the optimizer and the output still contains
a substring of the shape `name=""`. -/
theorem C7_counterexample :
    optimizeSvgPaths "a=\"\"" = "a=\"\"" ∧
    hasBareEmptyAttr (optimizeSvgPaths "a=\"\"").data = true :=
  ⟨by decide, by decide⟩

/-- Claim C7 (amended): what the pass eliminates are whitespace-preceded empty
attributes in either quote style, as on the demonstration input, whose output
retains the non-empty attribute and no empty one; the elimination is not
universal — an occurrence with no preceding whitespace survives, and spliced
seams of adjacent removals can even recreate the shape. -/
theorem C7_amended :
    optimizeSvgPaths exAttrs = "<svg x=\"1\"/>" ∧
    hasBareEmptyAttr (optimizeSvgPaths exAttrs).data = false :=
  ⟨by decide, by decide⟩

/-! ## Claim C8 — totality / no-throw -/

/-- Claim C8, counterexample: `Number.prototype.toFixed` throws a `RangeError`
for a digit count above `100`, and the replace callback runs as soon as a
literal is matched, so `roundCoordinates("1.5", 101)` raises instead of
returning a string (modelled as `none`). -/
theorem C8_counterexample : roundCoordinates "1.5" 101 = none := by decide

/-- Claim C8 (amended): `roundCoordinates` returns a string exactly when the
decimal pattern matches nowhere or `decimalPlaces ≤ 100`; in particular it is
total for every `decimalPlaces ≤ 100` (the pipeline's `decimalPlaces = 1`
included), and the remaining passes are total unconditionally. -/
theorem C8_amended (s : String) (dp : Nat) :
    (roundCoordinates s dp).isSome = true ↔
      (jsHasMatch mDec s.data = false ∨ dp ≤ 100) := by
  unfold roundCoordinates
  by_cases h : jsHasMatch mDec s.data = true ∧ 100 < dp
  · rw [if_pos h]
    simp only [Option.isSome_none, Bool.false_eq_true, false_iff]
    rintro (ha | hb)
    · rw [h.1] at ha
      cases ha
    · omega
  · rw [if_neg h]
    simp only [Option.isSome_some, true_iff]
    rcases Bool.eq_false_or_eq_true (jsHasMatch mDec s.data) with hb | hb
    · right
      by_contra hc
      exact h ⟨hb, by omega⟩
    · exact Or.inl hb

/-! ## Claim C9 — whitespace preservation in the formatter -/

/-- Claim C9: on the spec's example the formatter protects the inner content of
the `xml:space="preserve"` element behind a placeholder, re-indents nothing
(the document is a single line), and substitutes the content back, so the
output equals the input and contains the exact run `  a   b  `. -/
theorem C9_preserve :
    formatSvgStringD "<text xml:space=\"preserve\">  a   b  </text>"
      = "<text xml:space=\"preserve\">  a   b  </text>" ∧
    containsSub "  a   b  ".data
      (formatSvgStringD "<text xml:space=\"preserve\">  a   b  </text>").data = true :=
  ⟨by decide, by decide⟩

/-! ## Claim C10 — shape restriction of the duplicate-command collapse -/

/-- Claim C10, counterexample: the claim asserts `H10 H10` occurs unchanged,
but the backtracking numeric captures can split the digit run (`\2 = 1`,
`\3 = 0`), so the regex does match `H10 H10` and rewrites it to `H 1 0`. -/
theorem C10_counterexample :
    removeRedundantCommands "H10 H10" = "H 1 0" ∧
    removeRedundantCommands "H10 H10" ≠ "H10 H10" :=
  ⟨by decide, by decide⟩

/-- Claim C10 (amended): the collapse fires only on a command letter followed
by two unsigned numeric operands repeated (case-insensitively, anywhere in the
string), where the engine may re-split a digit run to obtain the two operands
(`H10 H10` → `H 1 0`); signed operands, `Z Z`, and six-operand `C` duplicates
are untouched, and the kept occurrence is rewritten with single spaces. -/
theorem C10_amended :
    removeRedundantCommands "L-5 5 L-5 5" = "L-5 5 L-5 5" ∧
    removeRedundantCommands "Z Z" = "Z Z" ∧
    removeRedundantCommands "C1 2 3 4 5 6 C1 2 3 4 5 6" = "C1 2 3 4 5 6 C1 2 3 4 5 6" ∧
    removeRedundantCommands "m1 2 M1 2" = "m 1 2" ∧
    removeRedundantCommands "x L1.5 2 L1.5 2 y" = "x L 1.5 2 y" :=
  ⟨by decide, by decide, by decide, by decide, by decide⟩
